import Mathlib

/-!
Verification of the outbound-call resilience layer of the Phineas repository:
the token-bucket rate limiter (`src/phineas/tools/crypto/rate_limiter.py`) and
the TTL/LRU response cache (`src/phineas/tools/crypto/cache.py`).

Modelling conventions: Python floats and timestamps are rationals; each call
that reads the wall clock takes an explicit `now` argument; Python `dict` /
`OrderedDict` values are association lists (insertion order preserved, keys
unique on the states the code constructs); exceptions are `Except` results.
-/

namespace Phineas

/-! ## Definitions -/

/-- State of `TokenBucket` (rate_limiter.py, lines 25-37). -/
structure TokenBucket where
  rate : ℚ
  capacity : ℚ
  tokens : ℚ
  last_update : ℚ
deriving DecidableEq

/-- `TokenBucket.__init__`: a fresh bucket starts full. -/
def TokenBucket.init (rate capacity now : ℚ) : TokenBucket :=
  { rate := rate, capacity := capacity, tokens := capacity, last_update := now }

/-- `TokenBucket.consume` (lines 39-65): refill by `elapsed * rate` capped at
`capacity`, set `last_update` to `now`, then consume `n` tokens when at least
`n` are available. -/
def TokenBucket.consume (b : TokenBucket) (now : ℚ) (n : ℕ) : Bool × TokenBucket :=
  let elapsed := now - b.last_update
  let tokens := min b.capacity (b.tokens + elapsed * b.rate)
  if (n : ℚ) ≤ tokens then
    (true, { b with tokens := tokens - n, last_update := now })
  else
    (false, { b with tokens := tokens, last_update := now })

/-- `TokenBucket.wait_time` (lines 67-79): seconds until one token is
available. -/
def TokenBucket.wait_time (b : TokenBucket) : ℚ :=
  if 1 ≤ b.tokens then 0 else (1 - b.tokens) / b.rate

/-- Run a sequence of `consume` calls; each step advances the clock by a
delay `dt ≥ 0` and then attempts to consume `n` tokens. -/
def TokenBucket.run (b : TokenBucket) : List (ℚ × ℕ) → TokenBucket
  | [] => b
  | (dt, n) :: steps => TokenBucket.run (b.consume (b.last_update + dt) n).2 steps

/-- Bucket invariant: positive configuration and level within `[0, capacity]`. -/
def TokenBucket.Inv (b : TokenBucket) : Prop :=
  0 < b.rate ∧ 0 < b.capacity ∧ 0 ≤ b.tokens ∧ b.tokens ≤ b.capacity

/-- Python `dict` / `OrderedDict` lookup on an association list (first match,
matching the unique-key states dictionaries can take). -/
def odGet {β : Type _} : List (String × β) → String → Option β
  | [], _ => none
  | e :: rest, k => if e.1 = k then some e.2 else odGet rest k

/-- `del d[k]`: remove the (first) entry with the given key. -/
def odErase {β : Type _} : List (String × β) → String → List (String × β)
  | [], _ => []
  | e :: rest, k => if e.1 = k then rest else e :: odErase rest k

/-- `d[k] = v`: replace the entry in place when the key is present, otherwise
append at the end (Python dict assignment preserves insertion order). -/
def odSet {β : Type _} : List (String × β) → String → β → List (String × β)
  | [], k, v => [(k, v)]
  | e :: rest, k, v => if e.1 = k then (k, v) :: rest else e :: odSet rest k v

/-- `OrderedDict.move_to_end(k)`: move the entry to the most-recent (last)
position.  The source only calls it on present keys; on an absent key the
model leaves the dictionary unchanged. -/
def odMoveToEnd {β : Type _} (l : List (String × β)) (k : String) : List (String × β) :=
  match odGet l k with
  | none => l
  | some v => odErase l k ++ [(k, v)]

/-- `TTLCache.MAX_TTL = 86400 * 7` (cache.py, line 27). -/
def MAX_TTL : ℚ := 86400 * 7

/-- State of `TTLCache` (cache.py, lines 29-55).  The `OrderedDict` is an
association list of `(key, (value, expiry))`, least recently used first. -/
structure TTLCache (α : Type _) where
  max_size : ℕ
  default_ttl : ℚ
  cache : List (String × α × ℚ)
  hits : ℕ
  misses : ℕ
  evictions : ℕ
deriving DecidableEq

/-- `TTLCache.__init__` (lines 29-55): validation then an empty cache.  The
Python `max_size <= 0` check appears as `max_size = 0` on ℕ. -/
def TTLCache.init (α : Type _) (max_size : ℕ) (default_ttl : ℚ) :
    Except String (TTLCache α) :=
  if max_size = 0 then .error "max_size must be positive"
  else if default_ttl < 0 then .error "default_ttl must be non-negative"
  else if default_ttl > MAX_TTL then .error "default_ttl exceeds maximum"
  else .ok { max_size := max_size, default_ttl := default_ttl, cache := [],
             hits := 0, misses := 0, evictions := 0 }

/-- `TTLCache._is_expired` (lines 57-59): expired iff `now > expiry`
(strict). -/
def TTLCache.is_expired (now expiry : ℚ) : Bool :=
  now > expiry

/-- `TTLCache._evict_expired` (lines 61-70): drop every entry with
`now > expiry`, counting one eviction per dropped entry. -/
def TTLCache.evict_expired {α : Type _} (c : TTLCache α) (now : ℚ) : TTLCache α :=
  { c with
    cache := c.cache.filter (fun e => ¬ TTLCache.is_expired now e.2.2),
    evictions := c.evictions + c.cache.countP (fun e => TTLCache.is_expired now e.2.2) }

/-- `TTLCache._evict_lru` (lines 72-77): when the cache is full, pop the
least-recently-used (head) entry.  `popitem` on an empty dict would raise, but
the guard `len ≥ max_size ≥ 1` makes that branch unreachable; the model keeps
the state unchanged there. -/
def TTLCache.evict_lru {α : Type _} (c : TTLCache α) : TTLCache α :=
  if c.max_size ≤ c.cache.length then
    match c.cache with
    | [] => c
    | _ :: rest => { c with cache := rest, evictions := c.evictions + 1 }
  else c

/-- `TTLCache.get` (lines 79-111).  Returns the looked-up value (`None` when
absent or expired) together with the updated cache.  The double lookup before
the delete mirrors the TOCTOU guard in the source; sequentially it always
sees the same entry. -/
def TTLCache.get {α : Type _} (c : TTLCache α) (now : ℚ) (key : String) :
    Option α × TTLCache α :=
  match odGet c.cache key with
  | none => (none, { c with misses := c.misses + 1 })
  | some (value, expiry) =>
    if TTLCache.is_expired now expiry then
      let c1 :=
        match odGet c.cache key with
        | some (_, expiry2) =>
          if expiry2 = expiry then
            { c with cache := odErase c.cache key, evictions := c.evictions + 1 }
          else c
        | none => c
      (none, { c1 with misses := c1.misses + 1 })
    else
      (some value,
       { c with cache := odMoveToEnd c.cache key, hits := c.hits + 1 })

/-- `TTLCache.set` (lines 113-155): validate and bound the TTL, compute the
expiry with its sanity check, sweep expired entries, evict the LRU entry when
the key is new and the cache is full, then insert and mark most recently
used. -/
def TTLCache.set {α : Type _} (c : TTLCache α) (now : ℚ) (key : String) (value : α)
    (ttlArg : Option ℚ) : Except String (TTLCache α) :=
  let ttl0 := ttlArg.getD c.default_ttl
  if ttl0 < 0 then .error "TTL must be non-negative"
  else
    let ttl := if ttl0 > MAX_TTL then MAX_TTL else ttl0
    let expiry := now + ttl
    if expiry < now ∨ expiry > now + MAX_TTL then .error "Invalid TTL value"
    else
      let c1 := c.evict_expired now
      let c2 := if (odGet c1.cache key).isNone then c1.evict_lru else c1
      .ok { c2 with cache := odMoveToEnd (odSet c2.cache key (value, expiry)) key }

/-- `TTLCache.delete` (lines 157-167). -/
def TTLCache.delete {α : Type _} (c : TTLCache α) (key : String) : TTLCache α :=
  match odGet c.cache key with
  | none => c
  | some _ => { c with cache := odErase c.cache key }

/-- `TTLCache.clear` (lines 169-173): drop the entries, keep the counters. -/
def TTLCache.clear {α : Type _} (c : TTLCache α) : TTLCache α :=
  { c with cache := [] }

/-- Python `round(q, 2)` on our rational model: round half to even at two
decimal places.  `s.num.fdiv s.den` is the floor of `s`. -/
def pyRound2 (q : ℚ) : ℚ :=
  let s := q * 100
  let f : ℤ := s.num.fdiv (s.den : ℤ)
  let r := s - (f : ℚ)
  let n : ℤ :=
    if r < 1 / 2 then f
    else if 1 / 2 < r then f + 1
    else if f % 2 = 0 then f else f + 1
  (n : ℚ) / 100

/-- The dictionary returned by `TTLCache.get_stats` (lines 175-193). -/
structure CacheStats where
  size : ℕ
  max_size : ℕ
  hits : ℕ
  misses : ℕ
  hit_rate_percent : ℚ
  evictions : ℕ
deriving DecidableEq

/-- `TTLCache.get_stats` (lines 175-193): note the hit rate is a percentage,
`hits / total * 100`, rounded to two decimals. -/
def TTLCache.get_stats {α : Type _} (c : TTLCache α) : CacheStats :=
  let total_requests := c.hits + c.misses
  let hit_rate : ℚ :=
    if total_requests > 0 then (c.hits : ℚ) / (total_requests : ℚ) * 100 else 0
  { size := c.cache.length, max_size := c.max_size, hits := c.hits,
    misses := c.misses, hit_rate_percent := pyRound2 hit_rate,
    evictions := c.evictions }

/-- One `TTLCache` operation, for stating trace invariants. -/
inductive CacheOp (α : Type _) where
  | get (now : ℚ) (key : String)
  | set (now : ℚ) (key : String) (value : α) (ttlArg : Option ℚ)
  | delete (key : String)
  | clear

/-- Run a sequence of cache operations.  A `set` whose validation raises
leaves the state unchanged (the source raises before mutating). -/
def TTLCache.run {α : Type _} (c : TTLCache α) : List (CacheOp α) → TTLCache α
  | [] => c
  | .get now key :: ops => TTLCache.run (c.get now key).2 ops
  | .set now key value ttlArg :: ops =>
    TTLCache.run (match c.set now key value ttlArg with
      | .ok c' => c'
      | .error _ => c) ops
  | .delete key :: ops => TTLCache.run (c.delete key) ops
  | .clear :: ops => TTLCache.run c.clear ops

/-- Python `int(q)`: truncation toward zero. -/
def pyInt (q : ℚ) : ℤ :=
  if 0 ≤ q then ⌊q⌋ else -⌊-q⌋

/-- The time bucket of `CryptoAPICache._generate_cache_key` (line 257):
`int(time.time() / 60) * 60`. -/
def timeBucket (now : ℚ) : ℤ :=
  pyInt (now / 60) * 60

/-- Ordering of parameter entries by parameter name, as used by
`json.dumps(params, sort_keys=True)`. -/
def paramLE (a b : String × String) : Prop :=
  a.1 ≤ b.1

instance : DecidableRel paramLE := fun a b => by
  unfold paramLE; infer_instance

instance : IsTotal (String × String) paramLE :=
  ⟨fun a b => le_total a.1 b.1⟩

instance : IsTrans (String × String) paramLE :=
  ⟨fun _ _ _ h1 h2 => le_trans h1 h2⟩

/-- `json.dumps(params, sort_keys=True)` (line 252): serialize the parameter
map with entries sorted by name.  Parameter values are modelled by their JSON
rendering; Python's stable sort is modelled by insertion sort, which agrees
with it on the duplicate-free key sets a `dict` can hold. -/
def jsonDumpsSorted (params : List (String × String)) : String :=
  "\x7b" ++ String.intercalate ", "
    ((List.insertionSort paramLE params).map
      (fun p => "\"" ++ p.1 ++ "\": " ++ p.2)) ++ "\x7d"

/-- The live-endpoint test of line 256:
`any(x in endpoint for x in ["price", "markets"])`, with Python's substring
operator modelled as `List.IsInfix` on the character lists. -/
def isLiveEndpoint (endpoint : String) : Bool :=
  ["price", "markets"].any (fun x => decide (x.toList <:+: endpoint.toList))

/-- The pre-hash key material of `CryptoAPICache._generate_cache_key`
(lines 233-265): `f"{endpoint}:{sorted_params}:{time_bucket}"` for live
endpoints, `f"{endpoint}:{sorted_params}"` otherwise. -/
def cacheData (endpoint : String) (params : List (String × String)) (now : ℚ) :
    String :=
  let sorted_params := jsonDumpsSorted params
  if isLiveEndpoint endpoint then
    endpoint ++ ":" ++ sorted_params ++ ":" ++ toString (timeBucket now)
  else
    endpoint ++ ":" ++ sorted_params

/-- `hashlib.sha256(...).hexdigest()` (line 264), modelled as the identity
injection: SHA-256 maps equal inputs to equal digests and is
collision-resistant, so key equality and key distinctness coincide with those
of the key material. -/
def sha256Hex (s : String) : String := s

/-- `CryptoAPICache._generate_cache_key` (lines 233-265). -/
def generate_cache_key (endpoint : String) (params : List (String × String))
    (now : ℚ) : String :=
  sha256Hex (cacheData endpoint params now)

/-- Decimal digit characters of a natural number (most significant first);
reference implementation used to reason about `Nat.repr`. -/
def natChars (n : ℕ) : List Char :=
  if _h : n < 10 then [Nat.digitChar n]
  else natChars (n / 10) ++ [Nat.digitChar (n % 10)]
decreasing_by
  exact Nat.div_lt_self (by omega) (by omega)

/-- A Python value as far as the `RateLimiter` constructor's `isinstance`
check is concerned: numeric or not. -/
inductive PyVal where
  | num (q : ℚ)
  | str (s : String)
deriving DecidableEq

/-- The numeric value of a validated limit entry (unreachable fallback 0 for
non-numeric values, which validation has already rejected). -/
def PyVal.toRat : PyVal → ℚ
  | .num q => q
  | .str _ => 0

/-- `RateLimiter.MAX_WAITERS_PER_API = 100` (rate_limiter.py, line 99). -/
def MAX_WAITERS : ℕ := 100

/-- `RateLimiter.MIN_SLEEP = 0.01` (line 140). -/
def MIN_SLEEP : ℚ := 1 / 100

/-- `RateLimiter.MAX_TIMEOUT = 300` (line 143). -/
def MAX_TIMEOUT : ℚ := 300

/-- State of `RateLimiter` (lines 101-137): per-service buckets, backoff
deadlines, and free waiter-gate slots (the semaphore's remaining permits). -/
structure RateLimiter where
  buckets : List (String × TokenBucket)
  backoff_until : List (String × ℚ)
  waiters : List (String × ℕ)
deriving DecidableEq

/-- The validation loop of `RateLimiter.__init__` (lines 117-124): reject the
first non-numeric, non-positive, or `> 10000` limit. -/
def validateLimits : List (String × PyVal) → Except String Unit
  | [] => .ok ()
  | (name, v) :: rest =>
    match v with
    | .str _ => .error ("Rate limit for " ++ name ++ " must be numeric")
    | .num rpm =>
      if rpm ≤ 0 then .error ("Rate limit for " ++ name ++ " must be positive")
      else if rpm > 10000 then .error ("Rate limit for " ++ name ++ " unreasonably high")
      else validateLimits rest

/-- `RateLimiter.__init__` (lines 101-137): validate, then give each service a
bucket with `rate = rpm / 60`, `capacity = min(5, rpm / 12)`, no backoff, and
`MAX_WAITERS` free waiter slots. -/
def RateLimiter.init (limits : List (String × PyVal)) (now : ℚ) :
    Except String RateLimiter :=
  match validateLimits limits with
  | .error e => .error e
  | .ok _ =>
    .ok
      { buckets := limits.map (fun p =>
          (p.1, TokenBucket.init (p.2.toRat / 60) (min 5 (p.2.toRat / 12)) now))
        backoff_until := limits.map (fun p => (p.1, 0))
        waiters := limits.map (fun p => (p.1, MAX_WAITERS)) }

/-- Python truthiness of an `Optional[int]`: `None` and `0` are falsy. -/
def pyTruthy : Option ℤ → Bool
  | none => false
  | some n => n ≠ 0

/-- `RateLimiter.report_rate_limit_error` (lines 212-240): use the
`retry_after` value when truthy, otherwise double the remaining backoff
(capped at 300s) or start a fresh 60s backoff. -/
def RateLimiter.report_rate_limit_error (rl : RateLimiter) (api : String)
    (retry_after : Option ℤ) (now : ℚ) : RateLimiter :=
  let backoff_seconds : ℚ :=
    if pyTruthy retry_after then ((retry_after.getD 0 : ℤ) : ℚ)
    else
      let current_backoff := (odGet rl.backoff_until api).getD 0
      if current_backoff > now then min ((current_backoff - now) * 2) 300
      else 60
  { rl with backoff_until := odSet rl.backoff_until api (now + backoff_seconds) }

/-- `RateLimiter.reset_backoff` (lines 242-252). -/
def RateLimiter.reset_backoff (rl : RateLimiter) (api : String) : RateLimiter :=
  { rl with backoff_until := odSet rl.backoff_until api 0 }

/-- `semaphore.release()` in the `finally` block of `acquire` (line 210). -/
def RateLimiter.release_waiter (rl : RateLimiter) (api : String) : RateLimiter :=
  { rl with waiters := odSet rl.waiters api ((odGet rl.waiters api).getD 0 + 1) }

/-- Result of `RateLimiter.acquire`: a boolean with the post-state, a raised
`ValueError` with the (unchanged) state, or exhaustion of the model's loop
fuel. -/
inductive AcqResult where
  | ok (granted : Bool) (rl : RateLimiter) (now : ℚ)
  | err (msg : String) (rl : RateLimiter) (now : ℚ)
  | fuelOut
deriving DecidableEq

/-- The polling loop of `acquire` (lines 194-207): try to consume a token;
on failure check the elapsed time against the timeout and sleep
`max(MIN_SLEEP, min(bucket.wait_time(), timeout - elapsed))`.  `sleep`
advances the model clock by exactly the requested duration; `fuel` bounds the
number of iterations. -/
def RateLimiter.acquireLoop (api : String) (timeout start : ℚ) :
    ℕ → RateLimiter → ℚ → Option (Bool × RateLimiter × ℚ)
  | 0, _, _ => none
  | fuel + 1, rl, now =>
    match odGet rl.buckets api with
    | none => none
    | some bucket =>
      let res := bucket.consume now 1
      let rl' := { rl with buckets := odSet rl.buckets api res.2 }
      if res.1 then some (true, rl', now)
      else
        let elapsed := now - start
        if elapsed ≥ timeout then some (false, rl', now)
        else
          let wait := max MIN_SLEEP (min res.2.wait_time (timeout - elapsed))
          RateLimiter.acquireLoop api timeout start fuel rl' (now + wait)

/-- `RateLimiter.acquire` (lines 145-210): validate the service name and
timeout, clamp the timeout, take a waiter-gate slot without blocking (failing
fast when saturated), honour an active backoff deadline, poll the bucket, and
release the waiter slot on every exit path. -/
def RateLimiter.acquire (rl : RateLimiter) (api : String) (timeout now : ℚ)
    (fuel : ℕ) : AcqResult :=
  match odGet rl.buckets api with
  | none => .err "Unknown API" rl now
  | some _ =>
    if timeout < 0 then .err "Timeout must be non-negative" rl now
    else
      let timeout := if timeout > MAX_TIMEOUT then MAX_TIMEOUT else timeout
      let slots := (odGet rl.waiters api).getD 0
      if slots = 0 then .ok false rl now
      else
        let rl0 := { rl with waiters := odSet rl.waiters api (slots - 1) }
        let start := now
        let backoff_time := (odGet rl0.backoff_until api).getD 0
        if backoff_time > now ∧ backoff_time - now > timeout then
          .ok false (rl0.release_waiter api) now
        else
          let now1 := if backoff_time > now then backoff_time else now
          match RateLimiter.acquireLoop api timeout start fuel rl0 now1 with
          | none => .fuelOut
          | some (granted, rl1, now2) => .ok granted (rl1.release_waiter api) now2

/-! ## Theorems -/

section AssocLemmas

variable {β : Type _}

theorem odGet_odSet (l : List (String × β)) (k : String) (v : β) :
    odGet (odSet l k v) k = some v := by
  induction l with
  | nil => simp [odSet, odGet]
  | cons e rest ih =>
    by_cases h : e.1 = k
    · simp [odSet, odGet, h]
    · simp [odSet, odGet, h, ih]

theorem odGet_odSet_ne (l : List (String × β)) (k k' : String) (v : β)
    (h : k' ≠ k) : odGet (odSet l k v) k' = odGet l k' := by
  induction l with
  | nil =>
    simp only [odSet, odGet]
    rw [if_neg (fun he : k = k' => h he.symm)]
  | cons e rest ih =>
    by_cases he : e.1 = k
    · simp only [odSet, if_pos he, odGet]
      rw [if_neg (fun hx : k = k' => h hx.symm),
        if_neg (fun hx : e.1 = k' => h (hx.symm.trans he))]
    · simp only [odSet, if_neg he, odGet]
      by_cases he' : e.1 = k'
      · rw [if_pos he', if_pos he']
      · rw [if_neg he', if_neg he', ih]

theorem odSet_same (l : List (String × β)) (k : String) (v : β)
    (h : odGet l k = some v) : odSet l k v = l := by
  induction l with
  | nil => simp [odGet] at h
  | cons e rest ih =>
    by_cases he : e.1 = k
    · simp only [odGet, if_pos he] at h
      obtain rfl : e.2 = v := Option.some.inj h
      simp [odSet, if_pos he, ← he]
    · simp only [odGet, if_neg he] at h
      simp [odSet, if_neg he, ih h]

theorem odSet_odSet (l : List (String × β)) (k : String) (a b : β) :
    odSet (odSet l k a) k b = odSet l k b := by
  induction l with
  | nil => simp [odSet]
  | cons e rest ih =>
    by_cases he : e.1 = k
    · simp [odSet, he]
    · simp [odSet, he, ih]

theorem odGet_mem (l : List (String × β)) (k : String) (v : β)
    (h : odGet l k = some v) : (k, v) ∈ l := by
  induction l with
  | nil => simp [odGet] at h
  | cons e rest ih =>
    by_cases he : e.1 = k
    · simp only [odGet, if_pos he] at h
      obtain rfl : e.2 = v := Option.some.inj h
      have hke : (k, e.2) = e := by rw [← he]
      rw [hke]
      exact List.mem_cons_self e rest
    · simp only [odGet, if_neg he] at h
      exact List.mem_cons_of_mem _ (ih h)

theorem odGet_none_iff (l : List (String × β)) (k : String) :
    odGet l k = none ↔ k ∉ l.map Prod.fst := by
  induction l with
  | nil => simp [odGet]
  | cons e rest ih =>
    by_cases he : e.1 = k
    · simp [odGet, he]
    · simp [odGet, he, ih, Ne.symm he]

theorem odErase_of_none (l : List (String × β)) (k : String)
    (h : odGet l k = none) : odErase l k = l := by
  induction l with
  | nil => rfl
  | cons e rest ih =>
    by_cases he : e.1 = k
    · simp [odGet, he] at h
    · simp only [odGet, if_neg he] at h
      simp [odErase, he, ih h]

theorem odErase_length (l : List (String × β)) (k : String) (v : β)
    (h : odGet l k = some v) : (odErase l k).length + 1 = l.length := by
  induction l with
  | nil => simp [odGet] at h
  | cons e rest ih =>
    by_cases he : e.1 = k
    · simp [odErase, he]
    · simp only [odGet, if_neg he] at h
      simp [odErase, he, ih h]

theorem odErase_sublist (l : List (String × β)) (k : String) :
    List.Sublist (odErase l k) l := by
  induction l with
  | nil => simp [odErase]
  | cons e rest ih =>
    by_cases he : e.1 = k
    · simp only [odErase, if_pos he]
      exact List.sublist_cons_self e rest
    · simp only [odErase, if_neg he]
      exact ih.cons₂ e

theorem odGet_none_of_sublist {l l' : List (String × β)} {k : String}
    (hs : List.Sublist l' l) (h : odGet l k = none) : odGet l' k = none := by
  rw [odGet_none_iff] at h ⊢
  exact fun hk => h ((hs.map Prod.fst).mem hk)

theorem odGet_odErase_of_nodup (l : List (String × β)) (k : String)
    (h : (l.map Prod.fst).Nodup) : odGet (odErase l k) k = none := by
  induction l with
  | nil => rfl
  | cons e rest ih =>
    simp only [List.map_cons, List.nodup_cons] at h
    by_cases he : e.1 = k
    · simp only [odErase, if_pos he]
      rw [odGet_none_iff, ← he]
      exact h.1
    · simp only [odErase, if_neg he, odGet, if_neg he]
      exact ih h.2

theorem odGet_odErase_ne (l : List (String × β)) (k k' : String)
    (h : k' ≠ k) : odGet (odErase l k) k' = odGet l k' := by
  induction l with
  | nil => rfl
  | cons e rest ih =>
    by_cases he : e.1 = k
    · simp only [odErase, if_pos he, odGet]
      rw [if_neg (fun hx : e.1 = k' => h (hx.symm.trans he))]
    · simp only [odErase, if_neg he, odGet]
      by_cases he' : e.1 = k'
      · rw [if_pos he', if_pos he']
      · rw [if_neg he', if_neg he', ih]

theorem odGet_append_of_none (l1 l2 : List (String × β)) (k : String)
    (h : odGet l1 k = none) : odGet (l1 ++ l2) k = odGet l2 k := by
  induction l1 with
  | nil => rfl
  | cons e rest ih =>
    by_cases he : e.1 = k
    · simp [odGet, he] at h
    · simp only [odGet, if_neg he] at h
      simp [odGet, he, ih h]

theorem odGet_append_of_some (l1 l2 : List (String × β)) (k : String) (v : β)
    (h : odGet l1 k = some v) : odGet (l1 ++ l2) k = some v := by
  induction l1 with
  | nil => simp [odGet] at h
  | cons e rest ih =>
    by_cases he : e.1 = k
    · simp only [odGet, if_pos he] at h
      simp [odGet, he, h]
    · simp only [odGet, if_neg he] at h
      simp [odGet, he, ih h]

theorem odSet_of_none (l : List (String × β)) (k : String) (v : β)
    (h : odGet l k = none) : odSet l k v = l ++ [(k, v)] := by
  induction l with
  | nil => rfl
  | cons e rest ih =>
    by_cases he : e.1 = k
    · simp [odGet, he] at h
    · simp only [odGet, if_neg he] at h
      simp [odSet, he, ih h]

theorem odSet_length_of_some (l : List (String × β)) (k : String) (v w : β)
    (h : odGet l k = some w) : (odSet l k v).length = l.length := by
  induction l with
  | nil => simp [odGet] at h
  | cons e rest ih =>
    by_cases he : e.1 = k
    · simp [odSet, he]
    · simp only [odGet, if_neg he] at h
      simp [odSet, he, ih h]

theorem odErase_append_of_none (l1 l2 : List (String × β)) (k : String)
    (h : odGet l1 k = none) : odErase (l1 ++ l2) k = l1 ++ odErase l2 k := by
  induction l1 with
  | nil => rfl
  | cons e rest ih =>
    by_cases he : e.1 = k
    · simp [odGet, he] at h
    · simp only [odGet, if_neg he] at h
      simp [odErase, he, ih h]

theorem odMoveToEnd_length (l : List (String × β)) (k : String) :
    (odMoveToEnd l k).length = l.length := by
  unfold odMoveToEnd
  cases h : odGet l k with
  | none => rfl
  | some v =>
    simp only [List.length_append, List.length_singleton]
    exact odErase_length l k v h

theorem odMoveToEnd_append_self (l : List (String × β)) (k : String) (v : β)
    (h : odGet l k = none) : odMoveToEnd (l ++ [(k, v)]) k = l ++ [(k, v)] := by
  unfold odMoveToEnd
  rw [odGet_append_of_none _ _ _ h]
  simp only [odGet, if_pos rfl]
  rw [odErase_append_of_none _ _ _ h]
  simp [odErase]

end AssocLemmas

/-- C2 counterexample: the claim demands that an entry whose expiry is *at*
the current time be evicted and reported as a miss, but `_is_expired` uses the
strict test `now > expiry`, so at `now = expiry = 100` the entry (inserted by
an ordinary `set`) is served as a hit and nothing is evicted. -/
theorem ttlcache_get_at_expiry_counterexample :
    (TTLCache.set (α := ℕ)
        { max_size := 10, default_ttl := 300, cache := [], hits := 0,
          misses := 0, evictions := 0 } 0 "k" 7 (some 100) =
      .ok { max_size := 10, default_ttl := 300, cache := [("k", 7, 100)],
            hits := 0, misses := 0, evictions := 0 }) ∧
    (TTLCache.get (α := ℕ)
        { max_size := 10, default_ttl := 300, cache := [("k", 7, 100)],
          hits := 0, misses := 0, evictions := 0 } 100 "k").1 = some 7 ∧
    (TTLCache.get (α := ℕ)
        { max_size := 10, default_ttl := 300, cache := [("k", 7, 100)],
          hits := 0, misses := 0, evictions := 0 } 100 "k").2.evictions = 0 := by
  refine ⟨?_, by rfl, by rfl⟩
  norm_num [TTLCache.set, TTLCache.evict_expired, TTLCache.evict_lru, MAX_TTL,
    odGet, odSet, odMoveToEnd, odErase]

/-- C2 (amended: an entry is evicted exactly when its expiry is *strictly*
before the current time; at `expiry = now` the entry is still served): if the
entry's expiry is strictly before `now`, `get` removes it, records one
eviction and one miss, and returns absent; `get` never returns a value whose
expiry is strictly in the past (a returned value's expiry is at or after
`now`); and on an absent key `get` records a miss and returns absent. -/
theorem ttlcache_get_expiry (α : Type _) :
    (∀ (c : TTLCache α) (now : ℚ) (key : String) (v : α) (exp : ℚ),
      odGet c.cache key = some (v, exp) → exp < now →
      c.get now key =
        (none, { c with cache := odErase c.cache key,
                        evictions := c.evictions + 1,
                        misses := c.misses + 1 })) ∧
    (∀ (c : TTLCache α) (now : ℚ) (key : String),
      odGet c.cache key = none →
      c.get now key = (none, { c with misses := c.misses + 1 })) ∧
    (∀ (c : TTLCache α) (now : ℚ) (key : String) (v : α) (c' : TTLCache α),
      c.get now key = (some v, c') →
      ∃ exp : ℚ, odGet c.cache key = some (v, exp) ∧ now ≤ exp) := by
  refine ⟨?_, ?_, ?_⟩
  · intro c now key v exp hget hlt
    have hexp : TTLCache.is_expired now exp = true := by
      simp only [TTLCache.is_expired, gt_iff_lt, decide_eq_true_eq]
      exact hlt
    unfold TTLCache.get
    rw [hget]
    dsimp only
    rw [if_pos hexp, if_pos rfl]
  · intro c now key hget
    unfold TTLCache.get
    rw [hget]
  · intro c now key v c' hres
    unfold TTLCache.get at hres
    cases hget : odGet c.cache key with
    | none => rw [hget] at hres; exact absurd (congrArg Prod.fst hres) (by simp)
    | some p =>
      obtain ⟨w, exp⟩ := p
      rw [hget] at hres
      dsimp only at hres
      by_cases hlt : TTLCache.is_expired now exp = true
      · rw [if_pos hlt] at hres
        exact absurd (congrArg Prod.fst hres) (by simp)
      · rw [if_neg hlt] at hres
        have hv : w = v := by
          have := congrArg Prod.fst hres
          simpa using this
        refine ⟨exp, ?_, ?_⟩
        · rw [hv]
        · simp only [TTLCache.is_expired, gt_iff_lt, decide_eq_true_eq] at hlt
          exact le_of_not_lt hlt

theorem ttlcache_get_expiry_witness :
    TTLCache.get (α := ℕ)
        { max_size := 10, default_ttl := 300, cache := [("k", 7, 100)],
          hits := 0, misses := 0, evictions := 0 } 101 "k" =
      (none, { max_size := 10, default_ttl := 300, cache := [],
               hits := 0, misses := 1, evictions := 1 }) := by
  have h := (ttlcache_get_expiry ℕ).1
    { max_size := 10, default_ttl := 300, cache := [("k", 7, 100)],
      hits := 0, misses := 0, evictions := 0 } 101 "k" 7 100
    (by decide) (by norm_num)
  simpa [odErase] using h

/-- C9 counterexample: with one hit and one miss the claim predicts a hit
rate of `1 / 2`, but `get_stats` reports a *percentage* (`hits / total * 100`,
rounded to two decimals): it returns `50`. -/
theorem ttlcache_stats_counterexample :
    (TTLCache.get_stats (α := ℕ)
        { max_size := 10, default_ttl := 300, cache := [], hits := 1,
          misses := 1, evictions := 0 }).hit_rate_percent = 50 ∧
    ¬ (TTLCache.get_stats (α := ℕ)
        { max_size := 10, default_ttl := 300, cache := [], hits := 1,
          misses := 1, evictions := 0 }).hit_rate_percent =
      (1 : ℚ) / (1 + 1) := by
  have h : (TTLCache.get_stats (α := ℕ)
      { max_size := 10, default_ttl := 300, cache := [], hits := 1,
        misses := 1, evictions := 0 }).hit_rate_percent = 50 := by
    norm_num [TTLCache.get_stats, pyRound2]
  refine ⟨h, ?_⟩
  rw [h]
  norm_num

/-- C9 (amended: the hit rate is reported as a percentage —
`hits / (hits + misses) * 100` rounded to two decimals — not as the bare
ratio): `get_stats` returns the current entry count as `size`, the configured
`max_size`, the lifetime `hits`, `misses` and `evictions` counters, and the
rounded percentage hit rate, which is `0` when no get has been recorded yet
(`hits + misses = 0`). -/
theorem ttlcache_get_stats_fields {α : Type _} (c : TTLCache α) :
    c.get_stats.size = c.cache.length ∧
    c.get_stats.max_size = c.max_size ∧
    c.get_stats.hits = c.hits ∧
    c.get_stats.misses = c.misses ∧
    c.get_stats.evictions = c.evictions ∧
    (c.hits + c.misses = 0 → c.get_stats.hit_rate_percent = 0) ∧
    (0 < c.hits + c.misses → c.get_stats.hit_rate_percent =
      pyRound2 ((c.hits : ℚ) / ((c.hits + c.misses : ℕ) : ℚ) * 100)) := by
  refine ⟨rfl, rfl, rfl, rfl, rfl, ?_, ?_⟩
  · intro h
    unfold TTLCache.get_stats
    dsimp only
    rw [if_neg (by omega)]
    norm_num [pyRound2]
  · intro h
    unfold TTLCache.get_stats
    dsimp only
    rw [if_pos h]

/-- C3: with no `retry_after`, `report_rate_limit_error` follows the backoff
state machine: if no backoff is active (deadline at or before `now`) the
deadline becomes `now + 60`; if a backoff with remaining duration `d > 0` is
active it becomes `now + min (2 * d) 300`, which strictly increases the
deadline while `d < 300` and caps it at `now + 300` otherwise; and
`reset_backoff` returns the service to the idle state (deadline 0, the
epoch), after which the deadline is not in the future for any `now ≥ 0`. -/
theorem rateLimiter_backoff_machine (rl : RateLimiter) (api : String) (now : ℚ) :
    ((odGet rl.backoff_until api).getD 0 ≤ now →
      (odGet (rl.report_rate_limit_error api none now).backoff_until api).getD 0 =
        now + 60) ∧
    (now < (odGet rl.backoff_until api).getD 0 →
      (odGet (rl.report_rate_limit_error api none now).backoff_until api).getD 0 =
        now + min (((odGet rl.backoff_until api).getD 0 - now) * 2) 300 ∧
      ((odGet rl.backoff_until api).getD 0 - now < 300 →
        (odGet rl.backoff_until api).getD 0 <
          (odGet (rl.report_rate_limit_error api none now).backoff_until api).getD 0) ∧
      (300 ≤ (odGet rl.backoff_until api).getD 0 - now →
        (odGet (rl.report_rate_limit_error api none now).backoff_until api).getD 0 =
          now + 300)) ∧
    ((odGet (rl.reset_backoff api).backoff_until api).getD 0 = 0 ∧
      ∀ t : ℚ, 0 ≤ t → (odGet (rl.reset_backoff api).backoff_until api).getD 0 ≤ t) := by
  have hnone : pyTruthy none = false := rfl
  refine ⟨?_, ?_, ?_, ?_⟩
  · intro hle
    unfold RateLimiter.report_rate_limit_error
    rw [hnone]
    simp only [Bool.false_eq_true, if_false]
    rw [if_neg (not_lt.mpr hle), odGet_odSet]
    simp
  · intro hlt
    unfold RateLimiter.report_rate_limit_error
    rw [hnone]
    simp only [Bool.false_eq_true, if_false]
    rw [if_pos hlt, odGet_odSet]
    simp only [Option.getD_some]
    refine ⟨trivial, ?_, ?_⟩
    · intro hd
      have h1 : (odGet rl.backoff_until api).getD 0 - now <
          min (((odGet rl.backoff_until api).getD 0 - now) * 2) 300 :=
        lt_min (by linarith) (by linarith)
      linarith
    · intro hd
      rw [min_eq_right (by linarith)]
  · unfold RateLimiter.reset_backoff
    simp [odGet_odSet]
  · intro t ht
    unfold RateLimiter.reset_backoff
    simp [odGet_odSet]
    exact ht

theorem rateLimiter_backoff_machine_witness :
    (odGet (RateLimiter.report_rate_limit_error
        { buckets := [], backoff_until := [("x", 0)], waiters := [] }
        "x" none 5).backoff_until "x").getD 0 = 5 + 60 :=
  (rateLimiter_backoff_machine
    { buckets := [], backoff_until := [("x", 0)], waiters := [] } "x" 5).1
    (by decide)

/-- C8 counterexample: the claim says any caller-supplied `retry_after` gives
`backoff_until = now + retry_after`, but `if retry_after:` is Python
truthiness, so `retry_after = 0` is treated as absent: with no active backoff
at `now = 100` the deadline becomes `160` (the 60-second exponential base),
not `100 + 0 = 100`. -/
theorem rateLimiter_retry_after_counterexample :
    (odGet (RateLimiter.report_rate_limit_error
        { buckets := [], backoff_until := [("x", 0)], waiters := [] }
        "x" (some 0) 100).backoff_until "x").getD 0 = 160 ∧
    ¬ (odGet (RateLimiter.report_rate_limit_error
        { buckets := [], backoff_until := [("x", 0)], waiters := [] }
        "x" (some 0) 100).backoff_until "x").getD 0 = 100 + ((0 : ℤ) : ℚ) := by
  have h : (odGet (RateLimiter.report_rate_limit_error
      { buckets := [], backoff_until := [("x", 0)], waiters := [] }
      "x" (some 0) 100).backoff_until "x").getD 0 = 160 := by
    norm_num [RateLimiter.report_rate_limit_error, pyTruthy, odGet, odSet]
  refine ⟨h, ?_⟩
  rw [h]
  norm_num

/-- C8 (amended: the branch is taken on Python truthiness, so only a
*non-zero* `retry_after` is honoured; `retry_after = 0` falls back to the
exponential-backoff rule): for every service and every non-zero
`retry_after` supplied by the caller, `report_rate_limit_error` sets the
service's deadline to `now + retry_after`, independent of any previously
active backoff. -/
theorem rateLimiter_retry_after (rl : RateLimiter) (api : String) (n : ℤ)
    (now : ℚ) (h : n ≠ 0) :
    (odGet (rl.report_rate_limit_error api (some n) now).backoff_until api).getD 0 =
      now + (n : ℚ) := by
  have ht : pyTruthy (some n) = true := by simp [pyTruthy, h]
  unfold RateLimiter.report_rate_limit_error
  rw [ht]
  simp [odGet_odSet]

theorem rateLimiter_retry_after_witness :
    (odGet (RateLimiter.report_rate_limit_error
        { buckets := [], backoff_until := [("x", 500)], waiters := [] }
        "x" (some 7) 100).backoff_until "x").getD 0 = 100 + ((7 : ℤ) : ℚ) :=
  rateLimiter_retry_after
    { buckets := [], backoff_until := [("x", 500)], waiters := [] }
    "x" 7 100 (by decide)

theorem ttlcache_get_stats_fields_witness :
    (TTLCache.get_stats (α := ℕ)
        { max_size := 10, default_ttl := 300, cache := [], hits := 1,
          misses := 3, evictions := 2 }).hit_rate_percent =
      pyRound2 (((1 : ℕ) : ℚ) / (((1 + 3 : ℕ)) : ℚ) * 100) := by
  exact (ttlcache_get_stats_fields (α := ℕ)
    { max_size := 10, default_ttl := 300, cache := [], hits := 1,
      misses := 3, evictions := 2 }).2.2.2.2.2.2 (by decide)

theorem TokenBucket.consume_capacity (b : TokenBucket) (now : ℚ) (n : ℕ) :
    (b.consume now n).2.capacity = b.capacity := by
  unfold TokenBucket.consume
  dsimp only
  split <;> rfl

theorem TokenBucket.consume_rate (b : TokenBucket) (now : ℚ) (n : ℕ) :
    (b.consume now n).2.rate = b.rate := by
  unfold TokenBucket.consume
  dsimp only
  split <;> rfl

theorem TokenBucket.consume_inv (b : TokenBucket) (now : ℚ) (n : ℕ)
    (hb : b.Inv) (hnow : b.last_update ≤ now) : (b.consume now n).2.Inv := by
  obtain ⟨hr, hc, h0, hcap⟩ := hb
  have hre : 0 ≤ (now - b.last_update) * b.rate := mul_nonneg (by linarith) hr.le
  have hmin1 : min b.capacity (b.tokens + (now - b.last_update) * b.rate) ≤ b.capacity :=
    min_le_left _ _
  have hmin0 : 0 ≤ min b.capacity (b.tokens + (now - b.last_update) * b.rate) :=
    le_min hc.le (by linarith)
  have hn : (0 : ℚ) ≤ (n : ℚ) := Nat.cast_nonneg n
  unfold TokenBucket.consume
  dsimp only
  split
  · rename_i h
    exact ⟨hr, hc, by dsimp; linarith, by dsimp; linarith⟩
  · exact ⟨hr, hc, by dsimp; linarith, by dsimp; linarith⟩

theorem TokenBucket.run_inv (steps : List (ℚ × ℕ)) :
    ∀ b : TokenBucket, b.Inv → (∀ s ∈ steps, 0 ≤ s.1) →
      (TokenBucket.run b steps).Inv := by
  induction steps with
  | nil => intro b hb _; exact hb
  | cons s rest ih =>
    intro b hb hs
    obtain ⟨dt, n⟩ := s
    have hdt : 0 ≤ dt := hs (dt, n) (List.mem_cons_self _ _)
    exact ih _ (TokenBucket.consume_inv _ _ _ hb (by linarith))
      (fun t ht => hs t (List.mem_cons_of_mem _ ht))

theorem TokenBucket.run_capacity (steps : List (ℚ × ℕ)) :
    ∀ b : TokenBucket, (TokenBucket.run b steps).capacity = b.capacity := by
  induction steps with
  | nil => intro b; rfl
  | cons s rest ih =>
    intro b
    obtain ⟨dt, n⟩ := s
    rw [TokenBucket.run, ih, TokenBucket.consume_capacity]

theorem TokenBucket.consume_false (b b' : TokenBucket) (now : ℚ) (n : ℕ)
    (h : b.consume now n = (false, b')) :
    b' = { b with tokens := min b.capacity (b.tokens + (now - b.last_update) * b.rate),
                  last_update := now } := by
  unfold TokenBucket.consume at h
  dsimp only at h
  split at h
  · exact absurd (congrArg Prod.fst h) (by simp)
  · exact (congrArg Prod.snd h).symm

/-- C1: for every `TokenBucket(rate, capacity)` with `rate > 0` and
`capacity > 0`, over any sequence of `consume(n)` calls separated by
non-negative elapsed times, the token level stays in `[0, capacity]` (so it
never exceeds capacity and is non-negative after every successful consume);
and a failed `consume` changes no state except the refill update: tokens are
raised by `elapsed * rate` capped at `capacity` and `last_update` becomes
`now`. -/
theorem tokenBucket_level_bounds (rate capacity t0 : ℚ) (steps : List (ℚ × ℕ))
    (ht : ∀ s ∈ steps, 0 ≤ s.1) (hr : 0 < rate) (hc : 0 < capacity) :
    (0 ≤ (TokenBucket.run (TokenBucket.init rate capacity t0) steps).tokens ∧
      (TokenBucket.run (TokenBucket.init rate capacity t0) steps).tokens ≤ capacity) ∧
    (∀ (b b' : TokenBucket) (now : ℚ) (n : ℕ), b.consume now n = (false, b') →
      b' = { b with tokens := min b.capacity (b.tokens + (now - b.last_update) * b.rate),
                    last_update := now }) := by
  have hinit : (TokenBucket.init rate capacity t0).Inv :=
    ⟨hr, hc, hc.le, le_refl _⟩
  have hinv := TokenBucket.run_inv steps _ hinit ht
  have hcapeq := TokenBucket.run_capacity steps (TokenBucket.init rate capacity t0)
  refine ⟨⟨hinv.2.2.1, ?_⟩, fun b b' now n h => TokenBucket.consume_false b b' now n h⟩
  have := hinv.2.2.2
  rw [hcapeq] at this
  exact this

theorem tokenBucket_level_bounds_witness :
    0 ≤ (TokenBucket.run (TokenBucket.init 1 1 0) [(0, 1), (2, 1), (0, 1)]).tokens ∧
      (TokenBucket.run (TokenBucket.init 1 1 0) [(0, 1), (2, 1), (0, 1)]).tokens ≤ 1 :=
  (tokenBucket_level_bounds 1 1 0 [(0, 1), (2, 1), (0, 1)]
    (by decide) (by decide) (by decide)).1

theorem odGet_mapPair {γ δ : Type _} (l : List (String × γ))
    (f : String → γ → δ) (k : String) :
    odGet (l.map (fun p => (p.1, f p.1 p.2))) k = (odGet l k).map (f k) := by
  induction l with
  | nil => rfl
  | cons e rest ih =>
    by_cases he : e.1 = k
    · simp only [List.map_cons, odGet, if_pos he]
      rw [he]
      rfl
    · simp only [List.map_cons, odGet, if_neg he, ih]

theorem validateLimits_error_str (limits : List (String × PyVal)) (name s : String)
    (hmem : (name, PyVal.str s) ∈ limits) :
    ∃ e, validateLimits limits = .error e := by
  induction limits with
  | nil => simp at hmem
  | cons p rest ih =>
    obtain ⟨nm, v⟩ := p
    rcases List.mem_cons.mp hmem with heq | hrest
    · injection heq with h1 h2
      subst h1
      subst h2
      exact ⟨_, rfl⟩
    · cases v with
      | str t => exact ⟨_, rfl⟩
      | num rpm =>
        unfold validateLimits
        dsimp only
        by_cases h1 : rpm ≤ 0
        · rw [if_pos h1]; exact ⟨_, rfl⟩
        · rw [if_neg h1]
          by_cases h2 : rpm > 10000
          · rw [if_pos h2]; exact ⟨_, rfl⟩
          · rw [if_neg h2]; exact ih hrest

theorem validateLimits_error_num (limits : List (String × PyVal)) (name : String)
    (rpm : ℚ) (hmem : (name, PyVal.num rpm) ∈ limits)
    (hbad : rpm ≤ 0 ∨ rpm > 10000) :
    ∃ e, validateLimits limits = .error e := by
  induction limits with
  | nil => simp at hmem
  | cons p rest ih =>
    obtain ⟨nm, v⟩ := p
    rcases List.mem_cons.mp hmem with heq | hrest
    · injection heq with h1 h2
      subst h1
      subst h2
      unfold validateLimits
      dsimp only
      rcases hbad with h1 | h2
      · rw [if_pos h1]; exact ⟨_, rfl⟩
      · by_cases h1 : rpm ≤ 0
        · rw [if_pos h1]; exact ⟨_, rfl⟩
        · rw [if_neg h1, if_pos h2]; exact ⟨_, rfl⟩
    · cases v with
      | str t => exact ⟨_, rfl⟩
      | num q =>
        unfold validateLimits
        dsimp only
        by_cases h1 : q ≤ 0
        · rw [if_pos h1]; exact ⟨_, rfl⟩
        · rw [if_neg h1]
          by_cases h2 : q > 10000
          · rw [if_pos h2]; exact ⟨_, rfl⟩
          · rw [if_neg h2]; exact ih hrest

/-- C10: each configured service gets a TokenBucket with
`rate = rpm / 60` tokens per second and `capacity = min 5 (rpm / 12)` — so the
burst size is derived and never exceeds 5 — and construction fails with an
error when any service's limit is non-numeric, non-positive, or greater than
10000 requests per minute. -/
theorem rateLimiter_init_buckets (limits : List (String × PyVal)) (now : ℚ) :
    (∀ rl, RateLimiter.init limits now = .ok rl →
      ∀ api rpm, odGet limits api = some (PyVal.num rpm) →
        odGet rl.buckets api =
          some (TokenBucket.init (rpm / 60) (min 5 (rpm / 12)) now) ∧
        (TokenBucket.init (rpm / 60) (min 5 (rpm / 12)) now).capacity ≤ 5) ∧
    (∀ api s, (api, PyVal.str s) ∈ limits →
      ∃ e, RateLimiter.init limits now = .error e) ∧
    (∀ api rpm, (api, PyVal.num rpm) ∈ limits → rpm ≤ 0 ∨ rpm > 10000 →
      ∃ e, RateLimiter.init limits now = .error e) := by
  refine ⟨?_, ?_, ?_⟩
  · intro rl hok api rpm hget
    unfold RateLimiter.init at hok
    cases hval : validateLimits limits with
    | error e => rw [hval] at hok; exact absurd hok (by simp)
    | ok u =>
      rw [hval] at hok
      dsimp only at hok
      injection hok with hrl
      subst hrl
      constructor
      · show odGet (limits.map (fun p =>
          (p.1, TokenBucket.init (p.2.toRat / 60) (min 5 (p.2.toRat / 12)) now))) api = _
        rw [odGet_mapPair limits
          (fun _ v => TokenBucket.init (v.toRat / 60) (min 5 (v.toRat / 12)) now) api]
        rw [hget]
        rfl
      · exact min_le_left _ _
  · intro api s hmem
    obtain ⟨e, he⟩ := validateLimits_error_str limits api s hmem
    exact ⟨e, by unfold RateLimiter.init; rw [he]⟩
  · intro api rpm hmem hbad
    obtain ⟨e, he⟩ := validateLimits_error_num limits api rpm hmem hbad
    exact ⟨e, by unfold RateLimiter.init; rw [he]⟩

theorem rateLimiter_init_buckets_witness :
    odGet [("a", TokenBucket.init ((30 : ℚ) / 60) (min 5 (30 / 12)) 0)] "a" =
      some (TokenBucket.init ((30 : ℚ) / 60) (min 5 (30 / 12)) 0) ∧
    (TokenBucket.init ((30 : ℚ) / 60) (min 5 (30 / 12)) 0).capacity ≤ 5 :=
  (rateLimiter_init_buckets [("a", PyVal.num 30)] 0).1
    { buckets := [("a", TokenBucket.init ((30 : ℚ) / 60) (min 5 (30 / 12)) 0)],
      backoff_until := [("a", 0)],
      waiters := [("a", MAX_WAITERS)] } rfl "a" 30 (by decide)

theorem acquireLoop_waiters (api : String) (timeout start : ℚ) :
    ∀ (fuel : ℕ) (rl : RateLimiter) (now : ℚ) (g : Bool) (rl1 : RateLimiter)
      (n2 : ℚ), RateLimiter.acquireLoop api timeout start fuel rl now =
        some (g, rl1, n2) → rl1.waiters = rl.waiters := by
  intro fuel
  induction fuel with
  | zero =>
    intro rl now g rl1 n2 h
    exact absurd h (by simp [RateLimiter.acquireLoop])
  | succ fuel ih =>
    intro rl now g rl1 n2 h
    unfold RateLimiter.acquireLoop at h
    cases hb : odGet rl.buckets api with
    | none => rw [hb] at h; exact absurd h (by simp)
    | some bucket =>
      rw [hb] at h
      dsimp only at h
      by_cases hc : (bucket.consume now 1).1 = true
      · rw [if_pos hc] at h
        have h2 := Option.some.inj h
        have h3 : rl1 =
            { rl with buckets := odSet rl.buckets api (bucket.consume now 1).2 } :=
          (congrArg (fun p => p.2.1) h2).symm
        rw [h3]
      · rw [if_neg hc] at h
        by_cases ht : now - start ≥ timeout
        · rw [if_pos ht] at h
          have h2 := Option.some.inj h
          have h3 : rl1 =
              { rl with buckets := odSet rl.buckets api (bucket.consume now 1).2 } :=
            (congrArg (fun p => p.2.1) h2).symm
          rw [h3]
        · rw [if_neg ht] at h
          have hw := ih _ _ _ _ _ h
          exact hw

theorem odSet_release_restores (w : List (String × ℕ)) (api : String)
    (hne : ¬ (odGet w api).getD 0 = 0) :
    odSet (odSet w api ((odGet w api).getD 0 - 1)) api
      ((odGet (odSet w api ((odGet w api).getD 0 - 1)) api).getD 0 + 1) = w := by
  obtain ⟨s, hs⟩ : ∃ s, odGet w api = some s := by
    cases hv : odGet w api with
    | none => rw [hv] at hne; simp at hne
    | some s => exact ⟨s, rfl⟩
  rw [odGet_odSet]
  rw [hs] at hne ⊢
  simp only [Option.getD_some] at hne ⊢
  rw [odSet_odSet]
  have hsucc : s - 1 + 1 = s := Nat.succ_pred_eq_of_pos (Nat.pos_of_ne_zero hne)
  rw [hsucc]
  exact odSet_same w api s hs

/-- C6: when the service's waiter gate is saturated (no free slots left, i.e.
`MAX_WAITERS_PER_API` callers already hold slots), `acquire` returns `false`
immediately with the limiter and the clock completely unchanged (no token
consumed, no blocking); and on every exit path that returns a boolean
(success, timeout, or backoff refusal) the waiter slot taken on entry has
been released, so the free-slot table is restored to its entry value. -/
theorem rateLimiter_waiter_gate (rl : RateLimiter) (api : String)
    (timeout now : ℚ) (fuel : ℕ) :
    (∀ b, odGet rl.buckets api = some b → 0 ≤ timeout →
      odGet rl.waiters api = some 0 →
      rl.acquire api timeout now fuel = .ok false rl now) ∧
    (∀ g rl' now', rl.acquire api timeout now fuel = .ok g rl' now' →
      rl'.waiters = rl.waiters) := by
  constructor
  · intro b hb ht hw
    unfold RateLimiter.acquire
    rw [hb]
    dsimp only
    rw [if_neg (not_lt.mpr ht), hw]
    dsimp only [Option.getD_some]
    rw [if_pos rfl]
  · intro g rl' now' h
    unfold RateLimiter.acquire at h
    cases hb : odGet rl.buckets api with
    | none => rw [hb] at h; exact absurd h (by simp)
    | some b =>
      rw [hb] at h
      dsimp only at h
      by_cases ht : timeout < 0
      · rw [if_pos ht] at h; exact absurd h (by simp)
      · rw [if_neg ht] at h
        generalize (if timeout > MAX_TIMEOUT then MAX_TIMEOUT else timeout) = T at h
        by_cases hs : (odGet rl.waiters api).getD 0 = 0
        · rw [if_pos hs] at h
          injection h with h1 h2 h3
          rw [← h2]
        · rw [if_neg hs] at h
          by_cases hbk : (odGet rl.backoff_until api).getD 0 > now ∧
              (odGet rl.backoff_until api).getD 0 - now > T
          · rw [if_pos hbk] at h
            injection h with h1 h2 h3
            rw [← h2]
            unfold RateLimiter.release_waiter
            dsimp only
            exact odSet_release_restores rl.waiters api hs
          · rw [if_neg hbk] at h
            cases hloop : RateLimiter.acquireLoop api T now fuel
                { buckets := rl.buckets, backoff_until := rl.backoff_until,
                  waiters := odSet rl.waiters api ((odGet rl.waiters api).getD 0 - 1) }
                (if (odGet rl.backoff_until api).getD 0 > now then
                  (odGet rl.backoff_until api).getD 0 else now) with
            | none => rw [hloop] at h; exact absurd h (by simp)
            | some trip =>
              obtain ⟨g1, rl1, n2⟩ := trip
              rw [hloop] at h
              dsimp only at h
              injection h with h1 h2 h3
              rw [← h2]
              unfold RateLimiter.release_waiter
              dsimp only
              have hl := acquireLoop_waiters api T now fuel _ _ g1 rl1 n2 hloop
              dsimp only at hl
              rw [hl]
              exact odSet_release_restores rl.waiters api hs

theorem rateLimiter_waiter_gate_witness :
    RateLimiter.acquire
        { buckets := [("x", TokenBucket.init 1 1 0)], backoff_until := [("x", 0)],
          waiters := [("x", 0)] } "x" 10 0 5 =
      .ok false
        { buckets := [("x", TokenBucket.init 1 1 0)], backoff_until := [("x", 0)],
          waiters := [("x", 0)] } 0 :=
  (rateLimiter_waiter_gate
    { buckets := [("x", TokenBucket.init 1 1 0)], backoff_until := [("x", 0)],
      waiters := [("x", 0)] } "x" 10 0 5).1
    (TokenBucket.init 1 1 0) (by decide) (by decide) (by decide)

/-- C7: `acquire` raises a `ValueError` (rather than returning `false`)
exactly when the service name is not in the configured mapping or the timeout
is negative, and an error leaves the limiter state and the clock untouched; a
timeout above the 300-second maximum is not an error: it is clamped, so the
call behaves exactly like a call with `timeout = MAX_TIMEOUT`. -/
theorem rateLimiter_acquire_validation (rl : RateLimiter) (api : String)
    (timeout now : ℚ) (fuel : ℕ) :
    (odGet rl.buckets api = none →
      rl.acquire api timeout now fuel = .err "Unknown API" rl now) ∧
    (odGet rl.buckets api ≠ none → timeout < 0 →
      rl.acquire api timeout now fuel = .err "Timeout must be non-negative" rl now) ∧
    (∀ msg rl' now', rl.acquire api timeout now fuel = .err msg rl' now' →
      (odGet rl.buckets api = none ∨ timeout < 0) ∧ rl' = rl ∧ now' = now) ∧
    (odGet rl.buckets api ≠ none → MAX_TIMEOUT < timeout →
      rl.acquire api timeout now fuel = rl.acquire api MAX_TIMEOUT now fuel) := by
  refine ⟨?_, ?_, ?_, ?_⟩
  · intro hb
    unfold RateLimiter.acquire
    rw [hb]
  · intro hb ht
    cases hbs : odGet rl.buckets api with
    | none => exact absurd hbs hb
    | some b =>
      unfold RateLimiter.acquire
      rw [hbs]
      dsimp only
      rw [if_pos ht]
  · intro msg rl' now' h
    unfold RateLimiter.acquire at h
    cases hbs : odGet rl.buckets api with
    | none =>
      rw [hbs] at h
      injection h with h1 h2 h3
      exact ⟨Or.inl rfl, h2.symm, h3.symm⟩
    | some b =>
      rw [hbs] at h
      dsimp only at h
      by_cases ht : timeout < 0
      · rw [if_pos ht] at h
        injection h with h1 h2 h3
        exact ⟨Or.inr ht, h2.symm, h3.symm⟩
      · rw [if_neg ht] at h
        exfalso
        generalize (if timeout > MAX_TIMEOUT then MAX_TIMEOUT else timeout) = T at h
        by_cases hs : (odGet rl.waiters api).getD 0 = 0
        · rw [if_pos hs] at h
          exact AcqResult.noConfusion h
        · rw [if_neg hs] at h
          by_cases hbk : (odGet rl.backoff_until api).getD 0 > now ∧
              (odGet rl.backoff_until api).getD 0 - now > T
          · rw [if_pos hbk] at h
            exact AcqResult.noConfusion h
          · rw [if_neg hbk] at h
            cases hloop : RateLimiter.acquireLoop api T now fuel
                { buckets := rl.buckets, backoff_until := rl.backoff_until,
                  waiters := odSet rl.waiters api ((odGet rl.waiters api).getD 0 - 1) }
                (if (odGet rl.backoff_until api).getD 0 > now then
                  (odGet rl.backoff_until api).getD 0 else now) with
            | none => rw [hloop] at h; exact AcqResult.noConfusion h
            | some trip =>
              obtain ⟨g1, rl1, n2⟩ := trip
              rw [hloop] at h
              dsimp only at h
              exact AcqResult.noConfusion h
  · intro hb ht
    cases hbs : odGet rl.buckets api with
    | none => exact absurd hbs hb
    | some b =>
      have h1 : ¬ timeout < 0 := by
        have : (0 : ℚ) < MAX_TIMEOUT := by norm_num [MAX_TIMEOUT]
        exact not_lt.mpr (le_of_lt (lt_trans this ht))
      have h2 : ¬ MAX_TIMEOUT < (0 : ℚ) := by norm_num [MAX_TIMEOUT]
      have h3 : ¬ MAX_TIMEOUT > MAX_TIMEOUT := lt_irrefl _
      unfold RateLimiter.acquire
      rw [hbs]
      dsimp only
      rw [if_neg h1, if_neg h2, if_pos ht, if_neg h3]

theorem rateLimiter_acquire_validation_witness :
    RateLimiter.acquire
        { buckets := [("x", TokenBucket.init 1 1 0)], backoff_until := [("x", 0)],
          waiters := [("x", 100)] } "y" 10 0 5 =
      .err "Unknown API"
        { buckets := [("x", TokenBucket.init 1 1 0)], backoff_until := [("x", 0)],
          waiters := [("x", 100)] } 0 :=
  (rateLimiter_acquire_validation
    { buckets := [("x", TokenBucket.init 1 1 0)], backoff_until := [("x", 0)],
      waiters := [("x", 100)] } "y" 10 0 5).1 (by decide)

section CacheLemmas

variable {α : Type _}

theorem TTLCache.evict_lru_max_size (c : TTLCache α) :
    (TTLCache.evict_lru c).max_size = c.max_size := by
  unfold TTLCache.evict_lru
  split
  · split <;> rfl
  · rfl

theorem TTLCache.evict_lru_cache_sublist (c : TTLCache α) :
    List.Sublist (TTLCache.evict_lru c).cache c.cache := by
  unfold TTLCache.evict_lru
  split
  · cases hc : c.cache with
    | nil =>
      simp only [List.sublist_nil]
      exact hc
    | cons e rest =>
      dsimp only
      exact List.sublist_cons_self e rest
  · exact List.Sublist.refl _

theorem TTLCache.evict_lru_succ_le (c : TTLCache α) (hmax : 0 < c.max_size)
    (hlen : c.cache.length ≤ c.max_size) :
    (TTLCache.evict_lru c).cache.length + 1 ≤ c.max_size := by
  unfold TTLCache.evict_lru
  by_cases hc : c.max_size ≤ c.cache.length
  · rw [if_pos hc]
    cases hcc : c.cache with
    | nil =>
      dsimp only
      rw [hcc] at hc
      simp at hc
      omega
    | cons e rest =>
      dsimp only
      have hl : c.cache.length = rest.length + 1 := by rw [hcc]; rfl
      omega
  · rw [if_neg hc]
    omega

theorem TTLCache.get_snd_prop (c : TTLCache α) (now : ℚ) (key : String) :
    (c.get now key).2.cache.length ≤ c.cache.length ∧
    (c.get now key).2.max_size = c.max_size := by
  unfold TTLCache.get
  cases hget : odGet c.cache key with
  | none => exact ⟨le_refl _, rfl⟩
  | some p =>
    obtain ⟨v, exp⟩ := p
    dsimp only
    by_cases he : TTLCache.is_expired now exp = true
    · rw [if_pos he, if_pos rfl]
      have h1 := odErase_length c.cache key (v, exp) hget
      exact ⟨by dsimp only; omega, rfl⟩
    · rw [if_neg he]
      exact ⟨by dsimp only; rw [odMoveToEnd_length], rfl⟩

theorem TTLCache.delete_prop (c : TTLCache α) (key : String) :
    (c.delete key).cache.length ≤ c.cache.length ∧
    (c.delete key).max_size = c.max_size := by
  unfold TTLCache.delete
  cases hget : odGet c.cache key with
  | none => exact ⟨le_refl _, rfl⟩
  | some v => exact ⟨(odErase_sublist c.cache key).length_le, rfl⟩

theorem TTLCache.set_ok_prop (c : TTLCache α) (now : ℚ) (key : String)
    (value : α) (ttlArg : Option ℚ) (c' : TTLCache α) (hmax : 0 < c.max_size)
    (hlen : c.cache.length ≤ c.max_size)
    (hok : c.set now key value ttlArg = .ok c') :
    c'.cache.length ≤ c.max_size ∧ c'.max_size = c.max_size := by
  unfold TTLCache.set at hok
  by_cases h1 : ttlArg.getD c.default_ttl < 0
  · rw [if_pos h1] at hok; exact absurd hok (by simp)
  · rw [if_neg h1] at hok
    dsimp only at hok
    by_cases h2 : now + (if ttlArg.getD c.default_ttl > MAX_TTL then MAX_TTL
        else ttlArg.getD c.default_ttl) < now ∨
      now + (if ttlArg.getD c.default_ttl > MAX_TTL then MAX_TTL
        else ttlArg.getD c.default_ttl) > now + MAX_TTL
    · rw [if_pos h2] at hok; exact absurd hok (by simp)
    · rw [if_neg h2] at hok
      injection hok with hc'
      subst hc'
      have hc1len : (c.evict_expired now).cache.length ≤ c.max_size :=
        le_trans (List.length_filter_le _ _) hlen
      by_cases hnew : (odGet (c.evict_expired now).cache key).isNone = true
      · rw [if_pos hnew]
        have habs : odGet (TTLCache.evict_lru (c.evict_expired now)).cache key = none := by
          apply odGet_none_of_sublist (TTLCache.evict_lru_cache_sublist _)
          cases hx : odGet (c.evict_expired now).cache key with
          | none => rfl
          | some w => rw [hx] at hnew; simp at hnew
        constructor
        · dsimp only
          rw [odMoveToEnd_length, odSet_of_none _ _ _ habs]
          simp only [List.length_append, List.length_singleton]
          exact TTLCache.evict_lru_succ_le (c.evict_expired now) hmax hc1len
        · exact TTLCache.evict_lru_max_size _
      · rw [if_neg hnew]
        obtain ⟨w, hw⟩ : ∃ w, odGet (c.evict_expired now).cache key = some w := by
          cases hx : odGet (c.evict_expired now).cache key with
          | none => rw [hx] at hnew; simp at hnew
          | some w => exact ⟨w, rfl⟩
        constructor
        · dsimp only
          rw [odMoveToEnd_length, odSet_length_of_some _ _ _ _ hw]
          exact hc1len
        · rfl

theorem TTLCache.run_bound (ops : List (CacheOp α)) :
    ∀ c : TTLCache α, 0 < c.max_size → c.cache.length ≤ c.max_size →
      (TTLCache.run c ops).cache.length ≤ c.max_size ∧
      (TTLCache.run c ops).max_size = c.max_size := by
  induction ops with
  | nil => intro c _ h2; exact ⟨h2, rfl⟩
  | cons op rest ih =>
    intro c h1 h2
    cases op with
    | get now key =>
      have hp := TTLCache.get_snd_prop c now key
      simp only [TTLCache.run]
      obtain ⟨ha, hb⟩ := ih (c.get now key).2 (hp.2 ▸ h1)
        (hp.2 ▸ le_trans hp.1 h2)
      rw [hp.2] at ha hb
      exact ⟨ha, hb⟩
    | set now key value ttlArg =>
      cases hset : c.set now key value ttlArg with
      | error e =>
        simp only [TTLCache.run, hset]
        exact ih c h1 h2
      | ok c' =>
        have hp := TTLCache.set_ok_prop c now key value ttlArg c' h1 h2 hset
        simp only [TTLCache.run, hset]
        obtain ⟨ha, hb⟩ := ih c' (hp.2 ▸ h1) (hp.2 ▸ hp.1)
        rw [hp.2] at ha hb
        exact ⟨ha, hb⟩
    | delete key =>
      have hp := TTLCache.delete_prop c key
      simp only [TTLCache.run]
      obtain ⟨ha, hb⟩ := ih (c.delete key) (hp.2 ▸ h1)
        (hp.2 ▸ le_trans hp.1 h2)
      rw [hp.2] at ha hb
      exact ⟨ha, hb⟩
    | clear =>
      simp only [TTLCache.run]
      obtain ⟨ha, hb⟩ := ih c.clear h1 (by simp [TTLCache.clear])
      exact ⟨ha, hb⟩

theorem odGet_cons_none {β : Type _} {e : String × β} {rest : List (String × β)}
    {k : String} (h : odGet (e :: rest) k = none) :
    ¬ e.1 = k ∧ odGet rest k = none := by
  by_cases he : e.1 = k
  · simp [odGet, he] at h
  · simp only [odGet, if_neg he] at h
    exact ⟨he, h⟩

theorem TTLCache.evict_lru_evictions (c : TTLCache α) (hmax : 0 < c.max_size) :
    (TTLCache.evict_lru c).evictions =
      c.evictions + (if c.max_size ≤ c.cache.length then 1 else 0) := by
  unfold TTLCache.evict_lru
  by_cases hc : c.max_size ≤ c.cache.length
  · rw [if_pos hc, if_pos hc]
    cases hcc : c.cache with
    | nil =>
      rw [hcc] at hc
      simp at hc
      omega
    | cons e rest => rfl
  · rw [if_neg hc, if_neg hc]
    rfl

theorem TTLCache.set_ok_evictions (c : TTLCache α) (now : ℚ) (key : String)
    (value : α) (ttlArg : Option ℚ) (c' : TTLCache α) (hmax : 0 < c.max_size)
    (hok : c.set now key value ttlArg = .ok c') :
    c'.evictions = c.evictions +
      c.cache.countP (fun e => TTLCache.is_expired now e.2.2) +
      (if (odGet (c.evict_expired now).cache key).isNone = true ∧
          c.max_size ≤ (c.evict_expired now).cache.length then 1 else 0) := by
  unfold TTLCache.set at hok
  by_cases h1 : ttlArg.getD c.default_ttl < 0
  · rw [if_pos h1] at hok; exact absurd hok (by simp)
  · rw [if_neg h1] at hok
    dsimp only at hok
    by_cases h2 : now + (if ttlArg.getD c.default_ttl > MAX_TTL then MAX_TTL
        else ttlArg.getD c.default_ttl) < now ∨
      now + (if ttlArg.getD c.default_ttl > MAX_TTL then MAX_TTL
        else ttlArg.getD c.default_ttl) > now + MAX_TTL
    · rw [if_pos h2] at hok; exact absurd hok (by simp)
    · rw [if_neg h2] at hok
      injection hok with hc'
      subst hc'
      by_cases hnew : (odGet (c.evict_expired now).cache key).isNone = true
      · rw [if_pos hnew]
        rw [TTLCache.evict_lru_evictions (c.evict_expired now) hmax]
        by_cases hcap : c.max_size ≤ (c.evict_expired now).cache.length
        · rw [if_pos (show (c.evict_expired now).max_size ≤
              (c.evict_expired now).cache.length from hcap),
            if_pos (show (odGet (c.evict_expired now).cache key).isNone = true ∧
              c.max_size ≤ (c.evict_expired now).cache.length from ⟨hnew, hcap⟩)]
          rfl
        · rw [if_neg (show ¬ (c.evict_expired now).max_size ≤
              (c.evict_expired now).cache.length from hcap),
            if_neg (show ¬ ((odGet (c.evict_expired now).cache key).isNone = true ∧
              c.max_size ≤ (c.evict_expired now).cache.length) from
              fun hx => hcap hx.2)]
          rfl
      · rw [if_neg hnew,
          if_neg (show ¬ ((odGet (c.evict_expired now).cache key).isNone = true ∧
            c.max_size ≤ (c.evict_expired now).cache.length) from
            fun hx => hnew hx.1)]
        rfl

theorem TTLCache.evict_expired_id (c : TTLCache α) (now : ℚ)
    (hlive : ∀ e ∈ c.cache, now ≤ e.2.2) : c.evict_expired now = c := by
  have hfilter : c.cache.filter (fun e => ¬ TTLCache.is_expired now e.2.2) = c.cache := by
    apply List.filter_eq_self.mpr
    intro e he
    exact decide_eq_true
      (fun hdec => absurd (of_decide_eq_true hdec) (not_lt.mpr (hlive e he)))
  have hcount : c.cache.countP (fun e => TTLCache.is_expired now e.2.2) = 0 := by
    apply List.countP_eq_zero.mpr
    intro e he hdec
    exact absurd (of_decide_eq_true hdec) (not_lt.mpr (hlive e he))
  unfold TTLCache.evict_expired
  rw [hfilter, hcount]
  rfl

theorem TTLCache.set_new_ok (c : TTLCache α) (now : ℚ) (key : String)
    (value : α) (d : ℚ) (h0 : 0 ≤ d) (hM : d ≤ MAX_TTL)
    (hlive : ∀ e ∈ c.cache, now ≤ e.2.2)
    (hnew : odGet c.cache key = none)
    (hroom : c.cache.length < c.max_size) :
    c.set now key value (some d) = .ok
      { c with cache := c.cache ++ [(key, value, now + d)] } := by
  unfold TTLCache.set
  dsimp only [Option.getD]
  rw [if_neg (not_lt.mpr h0), if_neg (not_lt.mpr hM),
    if_neg (by rintro (h | h) <;> linarith)]
  rw [TTLCache.evict_expired_id c now hlive, hnew]
  dsimp only [Option.isNone]
  rw [if_pos rfl]
  unfold TTLCache.evict_lru
  rw [if_neg (not_le.mpr hroom)]
  rw [odSet_of_none _ _ _ hnew, odMoveToEnd_append_self _ _ _ hnew]

theorem TTLCache.set_full_ok (c : TTLCache α) (now : ℚ) (key : String)
    (value : α) (d : ℚ) (h0 : 0 ≤ d) (hM : d ≤ MAX_TTL)
    (hlive : ∀ e ∈ c.cache, now ≤ e.2.2)
    (hnew : odGet c.cache key = none)
    (hfull : c.cache.length = c.max_size) (hmax : 0 < c.max_size) :
    c.set now key value (some d) = .ok
      { c with cache := c.cache.tail ++ [(key, value, now + d)],
               evictions := c.evictions + 1 } := by
  unfold TTLCache.set
  dsimp only [Option.getD]
  rw [if_neg (not_lt.mpr h0), if_neg (not_lt.mpr hM),
    if_neg (by rintro (h | h) <;> linarith)]
  rw [TTLCache.evict_expired_id c now hlive, hnew]
  dsimp only [Option.isNone]
  rw [if_pos rfl]
  unfold TTLCache.evict_lru
  rw [if_pos (le_of_eq hfull.symm)]
  cases hcc : c.cache with
  | nil =>
    rw [hcc] at hfull
    simp at hfull
    omega
  | cons e rest =>
    dsimp only
    have hrest : odGet rest key = none := by
      rw [hcc] at hnew
      exact (odGet_cons_none hnew).2
    rw [odSet_of_none _ _ _ hrest, odMoveToEnd_append_self _ _ _ hrest]
    rfl

theorem TTLCache.run_append (c : TTLCache α) (l1 l2 : List (CacheOp α)) :
    TTLCache.run c (l1 ++ l2) = TTLCache.run (TTLCache.run c l1) l2 := by
  induction l1 generalizing c with
  | nil => rfl
  | cons op rest ih =>
    cases op with
    | get now key =>
      simp only [List.cons_append, TTLCache.run]
      exact ih _
    | set now key value ttlArg =>
      simp only [List.cons_append, TTLCache.run]
      exact ih _
    | delete key =>
      simp only [List.cons_append, TTLCache.run]
      exact ih _
    | clear =>
      simp only [List.cons_append, TTLCache.run]
      exact ih _

theorem odGet_mapEntry_none (l : List String) (v : α) (exp : ℚ) (k : String)
    (h : k ∉ l) : odGet (l.map (fun k' => (k', v, exp))) k = none := by
  rw [odGet_none_iff, List.map_map]
  simpa using h

theorem TTLCache.run_sets_fill (v : α) (now d : ℚ) (h0 : 0 ≤ d)
    (hM : d ≤ MAX_TTL) :
    ∀ (ks : List String) (c : TTLCache α), ks.Nodup →
      (∀ k ∈ ks, odGet c.cache k = none) →
      (∀ e ∈ c.cache, now ≤ e.2.2) →
      c.cache.length + ks.length ≤ c.max_size →
      TTLCache.run c (ks.map (fun k => CacheOp.set now k v (some d))) =
        { c with cache := c.cache ++ ks.map (fun k => (k, v, now + d)) } := by
  intro ks
  induction ks with
  | nil =>
    intro c _ _ _ _
    simp only [List.map_nil, TTLCache.run, List.append_nil]
  | cons k ks ih =>
    intro c hnod habs hlive hlen
    simp only [List.map_cons, TTLCache.run]
    have hroom : c.cache.length < c.max_size := by
      simp only [List.length_cons] at hlen
      omega
    have hset := TTLCache.set_new_ok c now k v d h0 hM hlive
      (habs k (List.mem_cons_self _ _)) hroom
    rw [hset]
    have hrec := ih { c with cache := c.cache ++ [(k, v, now + d)] }
      (List.Nodup.of_cons hnod)
      (by
        intro k' hk'
        dsimp only
        have hne : ¬ k = k' := fun he =>
          (List.nodup_cons.mp hnod).1 (he ▸ hk')
        rw [odGet_append_of_none _ _ _ (habs k' (List.mem_cons_of_mem _ hk'))]
        simp [odGet, hne])
      (by
        intro e he
        dsimp only at he
        rcases List.mem_append.mp he with h1 | h2
        · exact hlive e h1
        · simp only [List.mem_singleton] at h2
          subst h2
          dsimp only
          linarith)
      (by
        dsimp only
        simp only [List.length_append, List.length_singleton, List.length_cons,
          List.length_nil] at hlen ⊢
        omega)
    rw [hrec]
    simp [List.append_assoc]

theorem TTLCache.fill_evicts_lru (c : TTLCache α) (v : α) (now d : ℚ)
    (ks : List String) (hc : c.cache = []) (hmax : 0 < c.max_size)
    (hnod : ks.Nodup) (hlen : ks.length = c.max_size + 1)
    (h0 : 0 ≤ d) (hM : d ≤ MAX_TTL) :
    (TTLCache.run c (ks.map (fun k => CacheOp.set now k v (some d)))).evictions =
      c.evictions + 1 ∧
    (TTLCache.run c (ks.map (fun k => CacheOp.set now k v (some d)))).cache =
      (ks.drop 1).map (fun k => (k, v, now + d)) := by
  obtain ⟨kM, hkM⟩ : ∃ kM, ks.drop c.max_size = [kM] := by
    have hdl : (ks.drop c.max_size).length = 1 := by
      rw [List.length_drop, hlen]
      omega
    cases hd : ks.drop c.max_size with
    | nil => rw [hd] at hdl; simp at hdl
    | cons a t =>
      rw [hd] at hdl
      simp only [List.length_cons] at hdl
      have ht : t = [] := List.eq_nil_of_length_eq_zero (by omega)
      exact ⟨a, by rw [ht]⟩
  have hsplit : ks = ks.take c.max_size ++ [kM] := by
    conv_lhs => rw [← List.take_append_drop c.max_size ks]
    rw [hkM]
  have htklen : (ks.take c.max_size).length = c.max_size := by
    rw [List.length_take, hlen]
    omega
  have hkMnotin : kM ∉ ks.take c.max_size := by
    have hnod2 := hsplit ▸ hnod
    have := List.nodup_append.mp hnod2
    intro hmem
    exact this.2.2 hmem (List.mem_singleton_self kM)
  have hmap : ks.map (fun k => CacheOp.set now k v (some d)) =
      (ks.take c.max_size).map (fun k => CacheOp.set now k v (some d)) ++
        [CacheOp.set now kM v (some d)] := by
    conv_lhs => rw [hsplit]
    rw [List.map_append]
    rfl
  have hfill := TTLCache.run_sets_fill v now d h0 hM (ks.take c.max_size) c
    (List.Nodup.sublist (List.take_sublist _ _) hnod)
    (by intro k _; rw [hc]; rfl)
    (by intro e he; rw [hc] at he; simp at he)
    (by rw [hc]; simp [htklen])
  rw [hmap, TTLCache.run_append, hfill]
  simp only [TTLCache.run]
  have hfull := TTLCache.set_full_ok
    { c with cache := c.cache ++ (ks.take c.max_size).map (fun k => (k, v, now + d)) }
    now kM v d h0 hM
    (by
      intro e he
      dsimp only at he
      rw [hc, List.nil_append] at he
      obtain ⟨k', _, hk'⟩ := List.mem_map.mp he
      rw [← hk']
      dsimp only
      linarith)
    (by
      dsimp only
      rw [hc, List.nil_append]
      exact odGet_mapEntry_none _ _ _ _ hkMnotin)
    (by
      dsimp only
      rw [hc, List.nil_append, List.length_map, htklen])
    hmax
  rw [hfull]
  simp only [TTLCache.run]
  constructor
  · trivial
  · rw [hc, List.nil_append]
    have htail : ((ks.take c.max_size).map (fun k => (k, v, now + d))).tail =
        ((ks.take c.max_size).drop 1).map (fun k => (k, v, now + d)) := by
      rw [← List.drop_one, List.map_drop]
    rw [htail]
    have hdrop : ks.drop 1 = (ks.take c.max_size).drop 1 ++ [kM] := by
      conv_lhs => rw [hsplit]
      rw [List.drop_append_of_le_length (by omega)]
    rw [hdrop, List.map_append]
    rfl

theorem TTLCache.get_protects (c : TTLCache α) (now : ℚ) (k k' : String)
    (v : α) (exp : ℚ) (v' : α) (d : ℚ)
    (hnodk : (c.cache.map Prod.fst).Nodup)
    (hlive : ∀ e ∈ c.cache, now ≤ e.2.2)
    (hk : odGet c.cache k = some (v, exp))
    (hk' : odGet c.cache k' = none)
    (hM2 : 2 ≤ c.max_size) (hfull : c.cache.length = c.max_size)
    (h0 : 0 ≤ d) (hMd : d ≤ MAX_TTL) :
    ∀ c2, ((c.get now k).2).set now k' v' (some d) = .ok c2 →
      odGet c2.cache k = some (v, exp) ∧ c2.evictions = c.evictions + 1 := by
  have hkk' : k' ≠ k := fun he => by
    rw [he, hk] at hk'
    exact Option.noConfusion hk'
  have hexp : now ≤ exp := hlive _ (odGet_mem c.cache k (v, exp) hk)
  have hget2 : (c.get now k).2 =
      { c with cache := odMoveToEnd c.cache k, hits := c.hits + 1 } := by
    unfold TTLCache.get
    rw [hk]
    dsimp only
    rw [if_neg (show ¬ TTLCache.is_expired now exp = true from fun hdec =>
      absurd (of_decide_eq_true hdec) (not_lt.mpr hexp))]
  rw [hget2]
  have hl1eq : odMoveToEnd c.cache k = odErase c.cache k ++ [(k, (v, exp))] := by
    unfold odMoveToEnd
    rw [hk]
  intro c2 hset
  have hlive1 : ∀ e ∈ odMoveToEnd c.cache k, now ≤ e.2.2 := by
    intro e he
    rw [hl1eq] at he
    rcases List.mem_append.mp he with h1 | h2
    · exact hlive e ((odErase_sublist c.cache k).subset h1)
    · simp only [List.mem_singleton] at h2
      subst h2
      exact hexp
  have hnew1 : odGet (odMoveToEnd c.cache k) k' = none := by
    rw [hl1eq]
    rw [odGet_append_of_none _ _ _
      (by rw [odGet_odErase_ne c.cache k k' hkk']; exact hk')]
    simp only [odGet]
    rw [if_neg (fun h : k = k' => hkk' h.symm)]
  have hfull1 : (odMoveToEnd c.cache k).length = c.max_size := by
    rw [odMoveToEnd_length]
    exact hfull
  have hres := TTLCache.set_full_ok
    { c with cache := odMoveToEnd c.cache k, hits := c.hits + 1 }
    now k' v' d h0 hMd hlive1 hnew1 hfull1 (by dsimp only; omega)
  rw [hset] at hres
  injection hres with hc2
  subst hc2
  constructor
  · dsimp only
    rw [hl1eq]
    have hne : odErase c.cache k ≠ [] := by
      have hlen := odErase_length c.cache k (v, exp) hk
      intro hnil
      rw [hnil] at hlen
      simp only [List.length_nil, Nat.zero_add] at hlen
      omega
    rw [List.tail_append_singleton_of_ne_nil hne, List.append_assoc]
    rw [odGet_append_of_none _ _ _
      (odGet_none_of_sublist (List.tail_sublist _)
        (odGet_odErase_of_nodup c.cache k hnodk))]
    simp [odGet]
  · rfl

end CacheLemmas

/-- C4: over every sequence of TTLCache operations the entry count never
exceeds `max_size`; a successful `set` records one eviction per
currently-expired entry it sweeps, plus exactly one LRU eviction when (after
the sweep) the key is new and the cache is at `max_size`; inserting
`max_size + 1` distinct keys into a fresh cache causes exactly one eviction,
of the least-recently-used (first-inserted) key, leaving the later keys in
order; and a `get` on a live key moves it to most-recently-used, so a
subsequent insert into the full cache evicts some other entry and the key
just read survives. -/
theorem ttlcache_lru_eviction (α : Type _) :
    (∀ (c : TTLCache α) (ops : List (CacheOp α)), 0 < c.max_size →
      c.cache.length ≤ c.max_size →
      (TTLCache.run c ops).cache.length ≤ c.max_size) ∧
    (∀ (c : TTLCache α) (now : ℚ) (key : String) (value : α)
        (ttlArg : Option ℚ) (c' : TTLCache α), 0 < c.max_size →
      c.set now key value ttlArg = .ok c' →
      c'.evictions = c.evictions +
        c.cache.countP (fun e => TTLCache.is_expired now e.2.2) +
        (if (odGet (c.evict_expired now).cache key).isNone = true ∧
            c.max_size ≤ (c.evict_expired now).cache.length then 1 else 0)) ∧
    (∀ (c : TTLCache α) (v : α) (now d : ℚ) (ks : List String),
      c.cache = [] → 0 < c.max_size → ks.Nodup →
      ks.length = c.max_size + 1 → 0 ≤ d → d ≤ MAX_TTL →
      (TTLCache.run c
        (ks.map (fun k => CacheOp.set now k v (some d)))).evictions =
          c.evictions + 1 ∧
      (TTLCache.run c
        (ks.map (fun k => CacheOp.set now k v (some d)))).cache =
          (ks.drop 1).map (fun k => (k, v, now + d))) ∧
    (∀ (c : TTLCache α) (now : ℚ) (k k' : String) (v : α) (exp : ℚ)
        (v' : α) (d : ℚ),
      (c.cache.map Prod.fst).Nodup → (∀ e ∈ c.cache, now ≤ e.2.2) →
      odGet c.cache k = some (v, exp) → odGet c.cache k' = none →
      2 ≤ c.max_size → c.cache.length = c.max_size → 0 ≤ d → d ≤ MAX_TTL →
      ∀ c2, ((c.get now k).2).set now k' v' (some d) = .ok c2 →
        odGet c2.cache k = some (v, exp) ∧ c2.evictions = c.evictions + 1) :=
  ⟨fun c ops h1 h2 => (TTLCache.run_bound ops c h1 h2).1,
   fun c now key value ttlArg c' h1 hok =>
     TTLCache.set_ok_evictions c now key value ttlArg c' h1 hok,
   fun c v now d ks hc h1 h2 h3 h4 h5 =>
     TTLCache.fill_evicts_lru c v now d ks hc h1 h2 h3 h4 h5,
   fun c now k k' v exp v' d n1 n2 n3 n4 n5 n6 n7 n8 =>
     TTLCache.get_protects c now k k' v exp v' d n1 n2 n3 n4 n5 n6 n7 n8⟩

theorem ttlcache_lru_eviction_witness :
    (TTLCache.run (α := ℕ)
        { max_size := 2, default_ttl := 300, cache := [], hits := 0,
          misses := 0, evictions := 0 }
        (["a", "b", "c"].map
          (fun k => CacheOp.set 0 k 0 (some 10)))).evictions = 0 + 1 ∧
    (TTLCache.run (α := ℕ)
        { max_size := 2, default_ttl := 300, cache := [], hits := 0,
          misses := 0, evictions := 0 }
        (["a", "b", "c"].map
          (fun k => CacheOp.set 0 k 0 (some 10)))).cache =
      (["a", "b", "c"].drop 1).map (fun k => (k, 0, (0 : ℚ) + 10)) :=
  (ttlcache_lru_eviction ℕ).2.2.1
    { max_size := 2, default_ttl := 300, cache := [], hits := 0,
      misses := 0, evictions := 0 }
    0 0 10 ["a", "b", "c"] rfl (by decide) (by decide) (by decide)
    (by decide) (by norm_num [MAX_TTL])

section ReprLemmas

theorem toDigitsCore_eq_natChars :
    ∀ (fuel n : ℕ) (ds : List Char), n < fuel →
      Nat.toDigitsCore 10 fuel n ds = natChars n ++ ds := by
  intro fuel
  induction fuel with
  | zero => intro n ds h; omega
  | succ fuel ih =>
    intro n ds h
    unfold Nat.toDigitsCore
    dsimp only
    by_cases hdiv : n / 10 = 0
    · rw [if_pos hdiv]
      have hn : n < 10 := (Nat.div_eq_zero_iff (by norm_num)).mp hdiv
      unfold natChars
      rw [dif_pos hn, Nat.mod_eq_of_lt hn]
      rfl
    · rw [if_neg hdiv]
      have hpos : 0 < n := by
        rcases Nat.eq_zero_or_pos n with h0 | h0
        · exact absurd (by rw [h0]) hdiv
        · exact h0
      have h10 : n / 10 < fuel :=
        lt_of_lt_of_le (Nat.div_lt_self hpos (by norm_num)) (by omega)
      rw [ih (n / 10) _ h10]
      have hge : ¬ n < 10 := fun hlt =>
        hdiv ((Nat.div_eq_zero_iff (by norm_num)).mpr hlt)
      conv_rhs => rw [natChars]
      rw [dif_neg hge, List.append_assoc]
      rfl

theorem toDigits_eq_natChars (n : ℕ) : Nat.toDigits 10 n = natChars n := by
  unfold Nat.toDigits
  rw [toDigitsCore_eq_natChars (n + 1) n [] (Nat.lt_succ_self n), List.append_nil]

theorem natChars_ne_nil (n : ℕ) : natChars n ≠ [] := by
  unfold natChars
  by_cases h : n < 10
  · rw [dif_pos h]
    simp
  · rw [dif_neg h]
    simp

theorem digitChar_inj_lt :
    ∀ a : ℕ, a < 10 → ∀ b : ℕ, b < 10 →
      Nat.digitChar a = Nat.digitChar b → a = b := by decide

theorem natChars_injective : ∀ m n : ℕ, natChars m = natChars n → m = n := by
  intro m
  induction m using Nat.strong_induction_on with
  | _ m ih =>
    intro n h
    by_cases hm : m < 10
    · by_cases hn : n < 10
      · unfold natChars at h
        rw [dif_pos hm, dif_pos hn] at h
        exact digitChar_inj_lt m hm n hn (List.cons.inj h).1
      · exfalso
        unfold natChars at h
        rw [dif_pos hm, dif_neg hn] at h
        have hlen := congrArg List.length h
        simp only [List.length_singleton, List.length_append] at hlen
        have := List.length_pos.mpr (natChars_ne_nil (n / 10))
        omega
    · by_cases hn : n < 10
      · exfalso
        unfold natChars at h
        rw [dif_neg hm, dif_pos hn] at h
        have hlen := congrArg List.length h
        simp only [List.length_singleton, List.length_append] at hlen
        have := List.length_pos.mpr (natChars_ne_nil (m / 10))
        omega
      · unfold natChars at h
        rw [dif_neg hm, dif_neg hn] at h
        have hrev := congrArg List.reverse h
        simp only [List.reverse_append, List.reverse_cons, List.reverse_nil,
          List.nil_append, List.singleton_append] at hrev
        have h1 : Nat.digitChar (m % 10) = Nat.digitChar (n % 10) :=
          (List.cons.inj hrev).1
        have h2 : (natChars (m / 10)).reverse = (natChars (n / 10)).reverse :=
          (List.cons.inj hrev).2
        have hmod : m % 10 = n % 10 :=
          digitChar_inj_lt _ (Nat.mod_lt _ (by norm_num)) _
            (Nat.mod_lt _ (by norm_num)) h1
        have hdiveq : natChars (m / 10) = natChars (n / 10) := by
          have := congrArg List.reverse h2
          simpa using this
        have hdiv : m / 10 = n / 10 :=
          ih (m / 10) (Nat.div_lt_self (by omega) (by norm_num)) _ hdiveq
        omega

theorem natRepr_injective (m n : ℕ) (h : Nat.repr m = Nat.repr n) : m = n := by
  unfold Nat.repr at h
  have hdata := congrArg String.data h
  dsimp only [List.asString] at hdata
  rw [toDigits_eq_natChars, toDigits_eq_natChars] at hdata
  exact natChars_injective _ _ hdata

theorem toString_int_inj_nonneg (a b : ℤ) (ha : 0 ≤ a) (hb : 0 ≤ b)
    (h : toString a = toString b) : a = b := by
  obtain ⟨m, rfl⟩ := Int.eq_ofNat_of_zero_le ha
  obtain ⟨n, rfl⟩ := Int.eq_ofNat_of_zero_le hb
  have hm : toString (m : ℤ) = Nat.repr m := rfl
  have hn : toString (n : ℤ) = Nat.repr n := rfl
  rw [hm, hn] at h
  exact congrArg _ (natRepr_injective m n h)

theorem string_append_right_inj (s a b : String) (h : s ++ a = s ++ b) :
    a = b := by
  have hd := congrArg String.data h
  rw [String.data_append, String.data_append] at hd
  exact String.ext (List.append_cancel_left hd)

end ReprLemmas

section SortLemmas

theorem sorted_paramLE_strict (l : List (String × String))
    (hs : List.Sorted paramLE l) (hn : (l.map Prod.fst).Nodup) :
    List.Sorted (fun a b : String × String => a.1 < b.1) l := by
  have h2 : l.Pairwise (fun a b => a.1 ≠ b.1) := List.pairwise_map.mp hn
  exact (hs.and h2).imp (fun h => lt_of_le_of_ne h.1 h.2)

instance : IsAntisymm (String × String) (fun a b => a.1 < b.1) :=
  ⟨fun _ _ h1 h2 => absurd h2 (lt_asymm h1)⟩

theorem insertionSort_perm_eq (p1 p2 : List (String × String))
    (hnod : (p1.map Prod.fst).Nodup) (hperm : p1.Perm p2) :
    List.insertionSort paramLE p1 = List.insertionSort paramLE p2 := by
  have hnod2 : (p2.map Prod.fst).Nodup :=
    ((hperm.map Prod.fst).nodup_iff).mp hnod
  have hs1 : List.Sorted paramLE (List.insertionSort paramLE p1) :=
    List.sorted_insertionSort paramLE p1
  have hs2 : List.Sorted paramLE (List.insertionSort paramLE p2) :=
    List.sorted_insertionSort paramLE p2
  have hn1 : ((List.insertionSort paramLE p1).map Prod.fst).Nodup :=
    (((List.perm_insertionSort paramLE p1).map Prod.fst).nodup_iff).mpr hnod
  have hn2 : ((List.insertionSort paramLE p2).map Prod.fst).Nodup :=
    (((List.perm_insertionSort paramLE p2).map Prod.fst).nodup_iff).mpr hnod2
  exact List.eq_of_perm_of_sorted
    ((List.perm_insertionSort paramLE p1).trans
      (hperm.trans (List.perm_insertionSort paramLE p2).symm))
    (sorted_paramLE_strict _ hs1 hn1)
    (sorted_paramLE_strict _ hs2 hn2)

theorem jsonDumpsSorted_perm (p1 p2 : List (String × String))
    (hnod : (p1.map Prod.fst).Nodup) (hperm : p1.Perm p2) :
    jsonDumpsSorted p1 = jsonDumpsSorted p2 := by
  unfold jsonDumpsSorted
  rw [insertionSort_perm_eq p1 p2 hnod hperm]

end SortLemmas

theorem timeBucket_nonneg (t : ℚ) (ht : 0 ≤ t) : 0 ≤ timeBucket t := by
  unfold timeBucket pyInt
  rw [if_pos (by positivity)]
  have : (0 : ℤ) ≤ ⌊t / 60⌋ := Int.floor_nonneg.mpr (by positivity)
  omega

/-- C5: `ResponseCache` key derivation is parameter-order independent: two
parameter maps equal as sets of (name, value) pairs (modelled as
duplicate-free permutations) derive identical keys; for a live endpoint (one
containing `"price"` or `"markets"`), derivations at two times in the same
60-second bucket yield the same key and derivations in adjacent buckets
yield different keys (SHA-256 modelled as an injection); non-live endpoints
derive the same key regardless of the current time. -/
theorem responseCache_key_properties :
    (∀ (endpoint : String) (p1 p2 : List (String × String)) (t : ℚ),
      (p1.map Prod.fst).Nodup → p1.Perm p2 →
      generate_cache_key endpoint p1 t = generate_cache_key endpoint p2 t) ∧
    (∀ (endpoint : String) (p : List (String × String)) (t1 t2 : ℚ),
      isLiveEndpoint endpoint = true →
      (timeBucket t1 = timeBucket t2 →
        generate_cache_key endpoint p t1 = generate_cache_key endpoint p t2) ∧
      (0 ≤ t1 → 0 ≤ t2 → timeBucket t2 = timeBucket t1 + 60 →
        generate_cache_key endpoint p t1 ≠ generate_cache_key endpoint p t2)) ∧
    (∀ (endpoint : String) (p : List (String × String)) (t1 t2 : ℚ),
      isLiveEndpoint endpoint = false →
      generate_cache_key endpoint p t1 = generate_cache_key endpoint p t2) := by
  refine ⟨?_, ?_, ?_⟩
  · intro endpoint p1 p2 t hnod hperm
    unfold generate_cache_key sha256Hex cacheData
    rw [jsonDumpsSorted_perm p1 p2 hnod hperm]
  · intro endpoint p t1 t2 hlive
    constructor
    · intro hb
      unfold generate_cache_key sha256Hex cacheData
      rw [hb]
    · intro ht1 ht2 hadj heq
      unfold generate_cache_key sha256Hex cacheData at heq
      rw [if_pos hlive, if_pos hlive] at heq
      have hts : toString (timeBucket t1) = toString (timeBucket t2) :=
        string_append_right_inj _ _ _ heq
      have hb := toString_int_inj_nonneg _ _ (timeBucket_nonneg t1 ht1)
        (timeBucket_nonneg t2 ht2) hts
      rw [hadj] at hb
      omega
  · intro endpoint p t1 t2 hlive
    unfold generate_cache_key sha256Hex cacheData
    rw [if_neg (by rw [hlive]; exact Bool.false_ne_true),
      if_neg (by rw [hlive]; exact Bool.false_ne_true)]

theorem responseCache_key_properties_witness :
    generate_cache_key "prices" [("a", "1"), ("b", "2")] 0 =
      generate_cache_key "prices" [("b", "2"), ("a", "1")] 0 ∧
    generate_cache_key "price" [] 0 ≠ generate_cache_key "price" [] 60 := by
  constructor
  · exact responseCache_key_properties.1 "prices"
      [("a", "1"), ("b", "2")] [("b", "2"), ("a", "1")] 0
      (by decide) (by decide)
  · exact (responseCache_key_properties.2.1 "price" [] 0 60 (by decide)).2
      (by decide) (by decide)
      (by
        show timeBucket 60 = timeBucket 0 + 60
        unfold timeBucket pyInt
        norm_num)

end Phineas
